import Mathlib

/-!
# Verification of the crabtype typing-session engine

Shallow embedding of the typing-session engine of the `crabtype` repository
(`src/states/typing.rs`, `src/states/stats.rs`, `src/typingwidget.rs`) and
proofs about it.

Modelling conventions:
* Rust `f64` values (WPM figures, elapsed seconds, chart points) are modelled
  as `ℚ`.  All arithmetic the claims touch is exact small-integer arithmetic,
  where `f64` and `ℚ` agree.
* Rust `String`s are modelled as `List Char` (the engine only ever inserts
  ASCII characters in the range `'!'..'~'`, where Rust's byte-based `len` and
  slicing coincide with character counts).
* `Instant`/`Duration` values are rationals; `start.elapsed()` at wall-clock
  time `now` is `now - start`.
* Rust's panicking index `v[i]` is modelled by `List.getD i default`; the
  bounds questions raised by the spec are treated explicitly (claim C9).
-/

/-- A word: Rust `String` restricted to its character content. -/
abbrev Word := List Char

/-- `KeyStrokeKind` from `src/states/typing.rs`:
`Correct(char)`, `Incorrect(char)`, `Space(i32)` (signed overflow count). -/
inductive KeyStrokeKind where
  | correct (c : Char)
  | incorrect (c : Char)
  | space (n : ℤ)
deriving DecidableEq

/-- `TestMode` from `src/states/typing.rs`: `Duration(Duration)` or `Words(usize)`. -/
inductive TestMode where
  | duration (d : ℚ)
  | words (n : Nat)
deriving DecidableEq

/-- `CharDiffKind` from `src/states/stats.rs`. -/
inductive CharDiffKind where
  | correct
  | incorrect
  | extra
  | missed
deriving DecidableEq

/-- `FinalStats` from `src/states/stats.rs`. -/
structure FinalStats where
  wpm : ℚ
  raw_wpm : ℚ
  correct : Nat
  incorrect : Nat
  extra : Nat
  missed : Nat
deriving DecidableEq

/-- `FinalStats::default()`: all fields zero. -/
def FinalStats.default : FinalStats :=
  { wpm := 0, raw_wpm := 0, correct := 0, incorrect := 0, extra := 0, missed := 0 }

/-- `normalize_wpm` from `src/states/stats.rs`:
`char_amount / 5.0 * (60.0 / time)`. -/
def normalize_wpm (char_amount : ℚ) (time : ℚ) : ℚ :=
  char_amount / 5 * (60 / time)

/-- `word_difference` from `src/states/stats.rs`: positional zip-longest of the
target word against the input word.  The Rust function returns a lazy iterator;
we return the list of its elements. -/
def word_difference : Word → Word → List CharDiffKind
  | [], input => input.map fun _ => CharDiffKind.extra
  | _ :: cs, [] => CharDiffKind.missed :: word_difference cs []
  | c :: cs, i :: is =>
      (if c = i then CharDiffKind.correct else CharDiffKind.incorrect)
        :: word_difference cs is

/-- Folding a list of `CharDiffKind` into the running counters, as the inner
`for d in word_difference(..)` loop of `FinalStats::calculate` does. -/
def addDiffCounts (acc : FinalStats) (ds : List CharDiffKind) : FinalStats :=
  ds.foldl
    (fun a d =>
      match d with
      | CharDiffKind.correct => { a with correct := a.correct + 1 }
      | CharDiffKind.incorrect => { a with incorrect := a.incorrect + 1 }
      | CharDiffKind.extra => { a with extra := a.extra + 1 }
      | CharDiffKind.missed => { a with missed := a.missed + 1 })
    acc

/-- The body of the `fold` in `FinalStats::calculate`, for the pair at
position `i` out of `n = inputted_words.len()` pairs. -/
def calcStep (n : Nat) (acc : FinalStats) (i : Nat) (input corr : Word) : FinalStats :=
  let acc :=
    if input = corr then
      { acc with wpm := acc.wpm + input.length + 1 }
    else if i = n - 1 ∧ input.length ≤ corr.length ∧ input = corr.take input.length then
      { acc with wpm := acc.wpm + input.length, raw_wpm := acc.raw_wpm - 1 }
    else acc
  let acc := { acc with raw_wpm := acc.raw_wpm + input.length + 1 }
  let dcorr := if i ≠ n - 1 then corr else corr.take (min input.length corr.length)
  addDiffCounts acc (word_difference dcorr input)

/-- The enumerated fold over the zipped `(input, correct)` pairs in
`FinalStats::calculate`: `i` is the position of the head pair, `n` the total
number of pairs (`inputted_words.len()`). -/
def accumAux (n : Nat) : Nat → FinalStats → List (Word × Word) → FinalStats
  | _, acc, [] => acc
  | i, acc, (input, corr) :: rest => accumAux n (i + 1) (calcStep n acc i input corr) rest

/-- The fold of `FinalStats::calculate` before normalization. -/
def accumStats (inputted_words correct_words : List Word) : FinalStats :=
  accumAux inputted_words.length 0 FinalStats.default
    (inputted_words.zip correct_words)

/-- `FinalStats::calculate` from `src/states/stats.rs`. -/
def FinalStats.calculate (inputted_words correct_words : List Word)
    (test_duration : ℚ) : FinalStats :=
  let result := accumStats inputted_words correct_words
  { result with
      wpm := normalize_wpm result.wpm test_duration
      raw_wpm := normalize_wpm result.raw_wpm test_duration }

/-- The bucket key of `batch_key_strokes`:
`(dur.as_secs_f64() / time_step).ceil() as usize` (the `as usize` cast clamps
negative values to zero, matching `Int.toNat`). -/
def bucketKey (dur time_step : ℚ) : Nat :=
  ⌈dur / time_step⌉.toNat

/-- Consecutive grouping with a `Nat`-valued key, the semantics of itertools'
`group_by` used by `batch_key_strokes`. -/
def groupByKey {α : Type} (f : α → Nat) : List α → List (Nat × List α)
  | [] => []
  | a :: as =>
    match groupByKey f as with
    | [] => [(f a, [a])]
    | (k, g) :: rest =>
      if f a = k then (f a, a :: g) :: rest else (f a, [a]) :: (k, g) :: rest

/-- One step of the `(chars, errors)` fold inside `batch_key_strokes`: an
`Incorrect` keystroke bumps both counters, anything else only the character
count. -/
def groupStep (acc : ℚ × ℚ) (p : ℚ × KeyStrokeKind) : ℚ × ℚ :=
  match p.2 with
  | KeyStrokeKind.incorrect _ => (acc.1 + 1, acc.2 + 1)
  | _ => (acc.1 + 1, acc.2)

/-- The `(chars, errors)` fold over one group inside `batch_key_strokes`. -/
def groupCounts (g : List (ℚ × KeyStrokeKind)) : ℚ × ℚ :=
  g.foldl groupStep (0, 0)

/-- `batch_key_strokes` from `src/states/stats.rs`. -/
def batch_key_strokes (key_strokes : List (ℚ × KeyStrokeKind)) (time_step : ℚ) :
    List (ℚ × ℚ × ℚ) :=
  (groupByKey (fun p => bucketKey p.1 time_step) key_strokes).map
    (fun g => ((g.1 : ℚ) * time_step, (groupCounts g.2).1, (groupCounts g.2).2))

/-- `calculate_accuracy` from `src/states/stats.rs`.  (In ℚ the empty-log case
`0 / 0` evaluates to `0` where `f64` would give NaN; no claim depends on it.) -/
def calculate_accuracy (key_strokes : List (ℚ × KeyStrokeKind)) : ℚ :=
  let counts :=
    key_strokes.foldl
      (fun (acc : ℚ × ℚ) p =>
        match p.2 with
        | KeyStrokeKind.correct _ => (acc.1 + 1, acc.2)
        | KeyStrokeKind.incorrect _ => (acc.1, acc.2 + 1)
        | KeyStrokeKind.space n => if n ≠ 0 then (acc.1, acc.2 + 1) else acc)
      (0, 0)
  counts.1 / (counts.1 + counts.2)

/-- `StatsState` from `src/states/stats.rs` (the data fields; rendering is
outside the model). -/
structure StatsState where
  raw_wpms : List (ℚ × ℚ)
  errors_wpms : List (ℚ × ℚ)
  key_strokes : List (ℚ × KeyStrokeKind)
  accuracy : ℚ
  test_duration : ℚ
  final_stats : FinalStats
deriving DecidableEq

/-- `StatsState::new` from `src/states/stats.rs`.  Parameter order is the
source's: `(key_strokes, test_duration, inputted_words, correct_words)`. -/
def StatsState.new (key_strokes : List (ℚ × KeyStrokeKind)) (test_duration : ℚ)
    (inputted_words correct_words : List Word) : StatsState :=
  let time_step := max (test_duration / 20) (1 / 2)
  let batched_ks := batch_key_strokes key_strokes time_step
  { raw_wpms := batched_ks.map (fun t => (t.1, normalize_wpm t.2.1 time_step))
    errors_wpms :=
      batched_ks.filterMap
        (fun t =>
          if t.2.2 ≠ 0 then some (t.1, normalize_wpm t.2.2 time_step) else none)
    accuracy := calculate_accuracy key_strokes
    key_strokes := key_strokes
    test_duration := test_duration
    final_stats := FinalStats.calculate inputted_words correct_words test_duration }

/-- `Vec::resize(n, String::new())` on the word list: truncate to `n` or pad
with empty words. -/
def listResize (l : List Word) (n : Nat) : List Word :=
  l.take n ++ List.replicate (n - l.length) []

/-- `TypingState` from `src/states/typing.rs`. -/
structure TypingState where
  written_words : List Word
  start_time : Option ℚ
  rows : List Nat
  word_list : List Word
  key_strokes : List (ℚ × KeyStrokeKind)
  mode : TestMode
deriving DecidableEq

/-- Mutating the last element of a list in place, as Rust's
`written_words.last_mut()` accesses do. -/
def updateLast (f : Word → Word) : List Word → List Word
  | [] => []
  | [w] => [f w]
  | w :: ws => w :: updateLast f ws

/-- `TypingState::new` from `src/states/typing.rs`: one empty input buffer, no
start instant, row list `[0]`, and in `Words(n)` mode the word list resized to
exactly `n` entries. -/
def TypingState.new (word_list : List Word) (mode : TestMode) : TypingState :=
  { written_words := [[]]
    start_time := none
    rows := [0]
    word_list :=
      match mode with
      | TestMode.words n => listResize word_list n
      | TestMode.duration _ => word_list
    key_strokes := []
    mode := mode }

/-- The index at which `add_char` and `add_space` read the target word list:
`written_words.len() - 1`. -/
def TypingState.activeIndex (s : TypingState) : Nat :=
  s.written_words.length - 1

/-- `TypingState::remove_empty`: with more than one buffer, pop the last buffer
iff the previous buffer differs from its target word. -/
def TypingState.remove_empty (s : TypingState) : TypingState :=
  if 1 < s.written_words.length then
    if s.written_words.getD (s.written_words.length - 2) []
        ≠ s.word_list.getD (s.written_words.length - 2) [] then
      { s with written_words := s.written_words.dropLast }
    else s
  else s

/-- `TypingState::remove_char`: pop the last character of the current buffer,
or `remove_empty` when the current buffer is empty. -/
def TypingState.remove_char (s : TypingState) : TypingState :=
  match s.written_words.getLast? with
  | none => s
  | some [] => s.remove_empty
  | some (_ :: _) => { s with written_words := updateLast List.dropLast s.written_words }

/-- `TypingState::remove_word`: clear the current buffer; when it is already
empty, `remove_empty` first and then clear the (possibly reopened) last buffer. -/
def TypingState.remove_word (s : TypingState) : TypingState :=
  match s.written_words.getLast? with
  | none => s
  | some [] =>
    let s' := s.remove_empty
    { s' with written_words := updateLast (fun _ => []) s'.written_words }
  | some (_ :: _) => { s with written_words := updateLast (fun _ => []) s.written_words }

/-- `TypingState::add_char`: push `c` onto the current buffer and log a
`Correct`/`Incorrect` keystroke by comparing against the target word's
character at the new position. -/
def TypingState.add_char (s : TypingState) (c : Char) (elapsed : ℚ) : TypingState :=
  match s.written_words.getLast? with
  | none => s
  | some w =>
    let len := w.length + 1
    let kind :=
      if (s.word_list.getD s.activeIndex []).get? (len - 1) = some c then
        KeyStrokeKind.correct c
      else KeyStrokeKind.incorrect c
    { s with
        written_words := updateLast (fun v => v ++ [c]) s.written_words
        key_strokes := s.key_strokes ++ [(elapsed, kind)] }

/-- `TypingState::add_space`: log a `Space` keystroke carrying the signed
overflow of the just-finished word, then open a fresh empty buffer. -/
def TypingState.add_space (s : TypingState) (elapsed : ℚ) : TypingState :=
  let i := s.activeIndex
  { s with
      key_strokes :=
        s.key_strokes
          ++ [(elapsed,
              KeyStrokeKind.space
                (((s.written_words.getD i []).length : ℤ)
                  - ((s.word_list.getD i []).length : ℤ)))]
      written_words := s.written_words ++ [[]] }

/-- Key-event kinds (`crossterm::event::KeyEventKind`). -/
inductive KeyEventKind where
  | press
  | release
  | repeated
deriving DecidableEq

/-- The key codes the engine distinguishes (`crossterm::event::KeyCode`):
character keys, backspace, and anything else. -/
inductive KeyCode where
  | char (c : Char)
  | backspace
  | other
deriving DecidableEq

/-- A key event: kind, code, and whether the CONTROL modifier is held. -/
structure KeyEvent where
  kind : KeyEventKind
  code : KeyCode
  ctrl : Bool
deriving DecidableEq

/-- `TypingState::handle_event` from `src/states/typing.rs`, at wall-clock
time `now`.  On any press the start instant is set if unset
(`start_time.get_or_insert_with(Instant::now)`); then the key is dispatched:
ctrl-`w`/ctrl-backspace → `remove_word`; a character in `'!'..='~'` →
`add_char`; `' '` → `add_space`; plain backspace → `remove_char`; anything
else is ignored. -/
def TypingState.handle_event (s : TypingState) (e : KeyEvent) (now : ℚ) : TypingState :=
  if e.kind = KeyEventKind.press then
    let time := s.start_time.getD now
    let s := { s with start_time := some time }
    match e.code with
    | KeyCode.char c =>
      if c = 'w' ∧ e.ctrl then s.remove_word
      else if '!' ≤ c ∧ c ≤ '~' then s.add_char c (now - time)
      else if c = ' ' then s.add_space (now - time)
      else s
    | KeyCode.backspace => if e.ctrl then s.remove_word else s.remove_char
    | KeyCode.other => s
  else s

/-- Result of a tick: stay `Active` or hand a `StatsState` snapshot to the
results view. -/
inductive StepResult where
  | active (s : TypingState)
  | finalized (st : StatsState)
deriving DecidableEq

/-- `TypingState::update` from `src/states/typing.rs`, at wall-clock time
`now`.  Mirrors the source call sites exactly: `StatsState::new` receives
`self.word_list` in its `inputted_words` slot and `self.written_words` in its
`correct_words` slot (and the source's fifth argument `self.mode` has no
matching parameter in `StatsState::new`). -/
def TypingState.update (s : TypingState) (now : ℚ) : StepResult :=
  match s.start_time with
  | none => StepResult.active s
  | some start_time =>
    match s.mode with
    | TestMode.duration dur =>
      if now - start_time > dur then
        StepResult.finalized
          (StatsState.new s.key_strokes dur s.word_list s.written_words)
      else StepResult.active s
    | TestMode.words words =>
      if s.written_words.length > words then
        StepResult.finalized
          (StatsState.new s.key_strokes (now - start_time) s.word_list s.written_words)
      else StepResult.active s

/-- Applying a timed event sequence to a state through `handle_event`. -/
def applyEvents (evs : List (ℚ × KeyEvent)) (s : TypingState) : TypingState :=
  evs.foldl (fun st p => st.handle_event p.2 p.1) s

/-- The number of word-boundary (`Space`) events in a keystroke log. -/
def spaceCount (ks : List (ℚ × KeyStrokeKind)) : Nat :=
  (ks.filter fun p =>
      match p.2 with
      | KeyStrokeKind.space _ => true
      | _ => false).length

/-- Whether a key event reaches `remove_char`/`remove_word`
(backspace, or ctrl-`w`). -/
def isRemoveKey (e : KeyEvent) : Bool :=
  match e.code with
  | KeyCode.backspace => true
  | KeyCode.char c => c == 'w' && e.ctrl
  | KeyCode.other => false

/-- A trace discipline: no backspace-like key is ever pressed while the
current input buffer is empty. -/
def noEmptyBackspace : TypingState → List (ℚ × KeyEvent) → Bool
  | _, [] => true
  | s, (t, e) :: rest =>
    (!(e.kind == KeyEventKind.press && isRemoveKey e
        && s.written_words.getLast? == some []))
      && noEmptyBackspace (s.handle_event e t) rest

/-- The style classes of `TypingWidget` (`src/typingwidget.rs`). -/
inductive Sty where
  | untyped
  | correct
  | error
  | cursor
deriving DecidableEq

/-- A rectangle of terminal cells (`ratatui::layout::Rect`). -/
structure Rect where
  x : Nat
  y : Nat
  width : Nat
  height : Nat
deriving DecidableEq

/-- A draw operation issued against the terminal buffer: `Buffer::set_string`
(writes characters and a style) or `Buffer::set_style` (restyles a region). -/
inductive Op where
  | setString (x y : Nat) (s : Word) (st : Sty)
  | setStyle (r : Rect) (st : Sty)
deriving DecidableEq

/-- `TypingWidget::combine_input`: show the input, extended by the untyped
tail of the target word when the target is longer. -/
def combine_input (input : Option Word) (word : Word) : Word :=
  match input with
  | none => word
  | some s => if word.length > s.length then s ++ word.drop s.length else s

/-- `TypingWidget::render_input_dif`: the style operations for one word.  A
fully correct word is restyled in one rectangle; otherwise each typed
character is styled by comparing with the target character at its position
(characters beyond the target are errors). -/
def render_input_dif (input word : Word) (area : Rect) (x y : Nat) : List Op :=
  if input = word then
    [Op.setStyle ⟨area.x + x, area.y + y, word.length, 1⟩ Sty.correct]
  else
    input.enum.map fun p =>
      Op.setStyle ⟨area.x + x + p.1, area.y + y, 1, 1⟩
        (match word.get? p.1 with
         | some cc => if cc = p.2 then Sty.correct else Sty.error
         | none => Sty.error)

/-- The mutable loop state of `TypingWidget::render`: pen position, the row
starts collected into `new_rows`, and the draw operations issued so far. -/
structure LayoutAcc where
  x : Nat
  y : Nat
  newRows : List Nat
  ops : List Op
deriving DecidableEq

/-- The word walk of `TypingWidget::render`.  Each item is
`(word, input_index, input)`; `lastIdx` is `written_words.len() - 1`.  Wrapping
happens when the displayed word would exceed the area width; the walk breaks
once past the bottom; at the active word the oldest tracked row start is
dropped when the active row would sit below row 1, and the cursor cell is
styled. -/
def renderLoop (area : Rect) (lastIdx : Nat) :
    List (Word × Nat × Option Word) → LayoutAcc → LayoutAcc
  | [], acc => acc
  | (word, i, input) :: rest, acc =>
    let wtd := combine_input input word
    let wrapped := acc.x + wtd.length > area.width
    let x := if wrapped then 0 else acc.x
    let y := if wrapped then acc.y + 1 else acc.y
    let rows0 := if wrapped then acc.newRows ++ [i] else acc.newRows
    if y ≥ area.height then { acc with x := x, y := y, newRows := rows0 }
    else
      let rows1 := if i = lastIdx ∧ y ≥ 2 then rows0.drop 1 else rows0
      let cursorOps :=
        if i = lastIdx then
          -- input is `Some` at the active index; `.unwrap()` in the source
          let cx := x + (input.getD []).length
          let cx2 := if cx ≥ area.width then 0 else cx
          let cy2 := if cx ≥ area.width then y + 1 else y
          [Op.setStyle ⟨area.x + cx2, area.y + cy2, 1, 1⟩ Sty.cursor]
        else []
      let diffOps :=
        match input with
        | some inp => render_input_dif inp word area x y
        | none => []
      renderLoop area lastIdx rest
        { x := x + wtd.length + 1
          y := y
          newRows := rows1
          ops := acc.ops ++ cursorOps
                  ++ [Op.setString (x + area.x) (y + area.y) wtd Sty.untyped]
                  ++ diffOps }

/-- The item sequence of `TypingWidget::render`: the word list zipped with the
enumerated input buffers (padded with `None`), skipping the first
`rows[0]` items. -/
def layoutItems (word_list written : List Word) (rows0 : Nat) :
    List (Word × Nat × Option Word) :=
  (List.range' rows0 (word_list.length - rows0)).map
    fun i => (word_list.getD i [], i, written.get? i)

/-- `TypingWidget::render` (`StatefulWidget::render` in `src/typingwidget.rs`)
as a pure function of the area, the session data, and the incoming first row
start `state.rows[0]`: returns the draw operations and the new `state.rows`. -/
def TypingWidget.render (area : Rect) (word_list written : List Word)
    (rows0 : Nat) : List Op × List Nat :=
  let acc :=
    renderLoop area (written.length - 1) (layoutItems word_list written rows0)
      ⟨0, 0, [rows0], []⟩
  (acc.ops, acc.newRows)

/-- Replaying a draw-operation list over one terminal cell, later operations
overriding earlier ones.  Cells start as a blank untyped space. -/
def cellAt (ops : List Op) (x y : Nat) : Char × Sty :=
  ops.foldl
    (fun cell op =>
      match op with
      | Op.setString x0 y0 cs st =>
        if y = y0 ∧ x0 ≤ x ∧ x < x0 + cs.length then (cs.getD (x - x0) ' ', st)
        else cell
      | Op.setStyle r st =>
        if r.x ≤ x ∧ x < r.x + r.width ∧ r.y ≤ y ∧ y < r.y + r.height then
          (cell.1, st)
        else cell)
    (' ', Sty.untyped)

/-! ## Basic lemmas about the diff engine -/

lemma word_difference_length (target input : Word) :
    (word_difference target input).length = max target.length input.length := by
  induction target generalizing input with
  | nil => simp [word_difference]
  | cons c cs ih =>
    cases input with
    | nil =>
      simp only [word_difference, List.length_cons, List.length_nil, ih]
      omega
    | cons i is =>
      simp only [word_difference, List.length_cons, ih]
      omega

lemma word_difference_get (target input : Word) (k : Nat) :
    (word_difference target input).get? k =
      match target.get? k, input.get? k with
      | some c, some d =>
        some (if c = d then CharDiffKind.correct else CharDiffKind.incorrect)
      | some _, none => some CharDiffKind.missed
      | none, some _ => some CharDiffKind.extra
      | none, none => none := by
  induction target generalizing input k with
  | nil =>
    cases input with
    | nil => simp [word_difference]
    | cons i is =>
      cases k with
      | zero => simp [word_difference]
      | succ k =>
        simp only [word_difference, List.map_cons, List.get?_cons_succ,
          List.get?_nil, List.get?_map]
        cases is.get? k <;> simp
  | cons c cs ih =>
    cases input with
    | nil =>
      cases k with
      | zero => simp [word_difference]
      | succ k =>
        have h := ih [] k
        simp only [List.get?_nil] at h
        simp only [word_difference, List.get?_cons_succ, List.get?_nil]
        rw [h]
    | cons i is =>
      cases k with
      | zero => simp [word_difference]
      | succ k =>
        simp only [word_difference, List.get?_cons_succ]
        exact ih is k

lemma word_difference_self (w : Word) :
    word_difference w w = List.replicate w.length CharDiffKind.correct := by
  induction w with
  | nil => simp [word_difference]
  | cons c cs ih => simp [word_difference, ih, List.replicate_succ]

/-- C4: `wordDifference` aligns the two words by position: the result has
length `max (len target) (len input)`, position `k` is `Correct`/`Incorrect`
by character equality where both words have a character, `Extra` where only
the input does, `Missed` where only the target does; it is a pure function of
its two inputs (it is a Lean function), and it satisfies the two
documented examples. -/
theorem C4_word_difference_alignment :
    (∀ target input : Word,
      (word_difference target input).length = max target.length input.length) ∧
    (∀ (target input : Word) (k : Nat),
      (word_difference target input).get? k =
        match target.get? k, input.get? k with
        | some c, some d =>
          some (if c = d then CharDiffKind.correct else CharDiffKind.incorrect)
        | some _, none => some CharDiffKind.missed
        | none, some _ => some CharDiffKind.extra
        | none, none => none) ∧
    word_difference ['a','a','b','b','c'] ['a','h','h','b','c','a','a'] =
      [CharDiffKind.correct, CharDiffKind.incorrect, CharDiffKind.incorrect,
       CharDiffKind.correct, CharDiffKind.correct, CharDiffKind.extra,
       CharDiffKind.extra] ∧
    word_difference ['b','b','b','d','a','s'] ['b','b','b'] =
      [CharDiffKind.correct, CharDiffKind.correct, CharDiffKind.correct,
       CharDiffKind.missed, CharDiffKind.missed, CharDiffKind.missed] :=
  ⟨word_difference_length, word_difference_get, by decide, by decide⟩


/-! ## C1: which arrays reach `FinalStats::calculate` at termination -/

/-- C1: the claim says termination computes `FinalStats.calculate` with the
user's typed words as `inputWords` and the target list as `targetWords`.  The
source call site (`src/states/typing.rs`, `TypingState::update`) instead
passes `&self.word_list` into `StatsState::new`'s `inputted_words` parameter
and `&self.written_words` into its `correct_words` parameter — the two arrays
are swapped (and the call passes a fifth argument `self.mode` that the
four-parameter `StatsState::new` does not accept).  This theorem evaluates the
embedded `update` at a finishing word-count session and shows (i) the snapshot
diffs with the target list in the input slot, and (ii) the argument order
matters: swapping the arrays changes the computed stats. -/
theorem C1_final_stats_receives_swapped_arrays :
    TypingState.update
        { written_words := [['d','a','c'], ['b'], []]
          start_time := some 0
          rows := [0]
          word_list := [['d','a','c'], ['b','b']]
          key_strokes := []
          mode := TestMode.words 2 } 5
      = StepResult.finalized
          (StatsState.new [] 5 [['d','a','c'], ['b','b']] [['d','a','c'], ['b'], []]) ∧
    FinalStats.calculate [['d','a','c'], ['b','b']] [['d','a','c'], ['b'], []] 12
      ≠ FinalStats.calculate [['d','a','c'], ['b'], []] [['d','a','c'], ['b','b']] 12 := by
  constructor
  · simp only [TypingState.update]
    norm_num
  · norm_num [FinalStats.calculate, accumStats, accumAux, calcStep, addDiffCounts,
      word_difference, normalize_wpm, FinalStats.default, List.zip_cons_cons,
      FinalStats.mk.injEq]

/-! ## C3: the accumulation rules of `FinalStats::calculate` -/

lemma addDiffCounts_wpm (ds : List CharDiffKind) (acc : FinalStats) :
    (addDiffCounts acc ds).wpm = acc.wpm ∧
    (addDiffCounts acc ds).raw_wpm = acc.raw_wpm := by
  induction ds generalizing acc with
  | nil => exact ⟨rfl, rfl⟩
  | cons d ds ih =>
    cases d <;> simpa [addDiffCounts] using ih _

lemma addDiffCounts_replicate_correct (n : Nat) (acc : FinalStats) :
    addDiffCounts acc (List.replicate n CharDiffKind.correct) =
      { acc with correct := acc.correct + n } := by
  induction n generalizing acc with
  | zero => simp [addDiffCounts]
  | succ n ih =>
    simp only [List.replicate_succ, addDiffCounts, List.foldl_cons]
    rw [show (List.foldl _ _ (List.replicate n CharDiffKind.correct)) =
      addDiffCounts { acc with correct := acc.correct + 1 }
        (List.replicate n CharDiffKind.correct) from rfl, ih]
    simp [Nat.add_assoc, Nat.add_comm 1 n]

/-- C3: the character-count accumulation of `FinalStats.calculate`:
a word other than the last that exactly matches its target adds `len + 1` to
both `wpm` and `raw_wpm` (and `len` correct characters); every pair not
hitting the last-word strict-prefix exception adds `len + 1` to `raw_wpm`;
the last word, when a strict prefix of its target, adds its raw `len` to
`wpm`, only `len` to `raw_wpm`, and is diffed against the typed-prefix
portion only, so it yields `len` correct characters and no
`Missed`/`Incorrect`/`Extra`; both totals are normalized as
`charCount / 5 * (60 / elapsed)`; and the documented example holds. -/
theorem C3_final_stats_accumulation :
    (∀ (n : Nat) (acc : FinalStats) (i : Nat) (input corr : Word),
      i ≠ n - 1 → input = corr →
      calcStep n acc i input corr =
        { acc with
            wpm := acc.wpm + input.length + 1
            raw_wpm := acc.raw_wpm + input.length + 1
            correct := acc.correct + input.length }) ∧
    (∀ (n : Nat) (acc : FinalStats) (i : Nat) (input corr : Word),
      ¬(i = n - 1 ∧ input ≠ corr ∧ input.length ≤ corr.length ∧
          input = corr.take input.length) →
      (calcStep n acc i input corr).raw_wpm = acc.raw_wpm + input.length + 1) ∧
    (∀ (n : Nat) (acc : FinalStats) (i : Nat) (input corr : Word),
      i = n - 1 → input ≠ corr → input.length ≤ corr.length →
      input = corr.take input.length →
      calcStep n acc i input corr =
        { acc with
            wpm := acc.wpm + input.length
            raw_wpm := acc.raw_wpm + input.length
            correct := acc.correct + input.length }) ∧
    (∀ (inp corr : List Word) (t : ℚ),
      FinalStats.calculate inp corr t =
        { accumStats inp corr with
            wpm := (accumStats inp corr).wpm / 5 * (60 / t)
            raw_wpm := (accumStats inp corr).raw_wpm / 5 * (60 / t) }) ∧
    FinalStats.calculate [['d','a','c'], ['b']] [['d','a','c'], ['b','b']] 12 =
      { wpm := 5, raw_wpm := 5, correct := 4, incorrect := 0, extra := 0,
        missed := 0 } := by
  refine ⟨?_, ?_, ?_, fun inp corr t => rfl, ?_⟩
  · intro n acc i input corr hi he
    subst he
    simp only [calcStep, if_true, eq_self_iff_true]
    rw [if_pos hi, word_difference_self, addDiffCounts_replicate_correct]
  · intro n acc i input corr h
    by_cases he : input = corr
    · subst he
      simp only [calcStep, if_true, eq_self_iff_true]
      exact (addDiffCounts_wpm _ _).2
    · have h2 : ¬(i = n - 1 ∧ input.length ≤ corr.length ∧
          input = corr.take input.length) :=
        fun hc => h ⟨hc.1, he, hc.2.1, hc.2.2⟩
      simp only [calcStep]
      rw [if_neg he, if_neg h2]
      exact (addDiffCounts_wpm _ _).2
  · intro n acc i input corr hi he hlen hpre
    have hc : i = n - 1 ∧ input.length ≤ corr.length ∧
        input = corr.take input.length := ⟨hi, hlen, hpre⟩
    have hni : ¬(i ≠ n - 1) := fun hx => hx hi
    have hmin : min input.length corr.length = input.length := Nat.min_eq_left hlen
    simp only [calcStep]
    rw [if_neg he, if_pos hc, if_neg hni, hmin, ← hpre, word_difference_self,
      addDiffCounts_replicate_correct]
    simp only [FinalStats.mk.injEq, eq_self_iff_true, true_and, and_true]
    ring
  · norm_num [FinalStats.calculate, accumStats, accumAux, calcStep, addDiffCounts,
      word_difference, normalize_wpm, FinalStats.default, List.zip_cons_cons,
      FinalStats.mk.injEq]

/-- Witness for `C3_final_stats_accumulation`: its hypothesis-bearing
conjuncts applied at concrete inputs. -/
theorem C3_final_stats_accumulation_witness :
    calcStep 2 FinalStats.default 0 ['a'] ['a'] =
      { FinalStats.default with
          wpm := FinalStats.default.wpm + (1 : Nat) + 1
          raw_wpm := FinalStats.default.raw_wpm + (1 : Nat) + 1
          correct := FinalStats.default.correct + 1 } ∧
    (calcStep 2 FinalStats.default 0 ['x'] ['a','b']).raw_wpm =
      FinalStats.default.raw_wpm + (1 : Nat) + 1 ∧
    calcStep 2 FinalStats.default 1 ['a'] ['a','b'] =
      { FinalStats.default with
          wpm := FinalStats.default.wpm + (1 : Nat)
          raw_wpm := FinalStats.default.raw_wpm + (1 : Nat)
          correct := FinalStats.default.correct + 1 } := by
  refine ⟨?_, ?_, ?_⟩
  · exact C3_final_stats_accumulation.1 2 FinalStats.default 0 ['a'] ['a']
      (by norm_num) rfl
  · exact C3_final_stats_accumulation.2.1 2 FinalStats.default 0 ['x'] ['a','b']
      (by simp)
  · exact C3_final_stats_accumulation.2.2.1 2 FinalStats.default 1 ['a'] ['a','b']
      rfl (by simp) (by simp) (by simp [List.take])

/-! ## C5: the time-bucketed chart series -/

lemma dropWhile_length_le {α : Type} (p : α → Bool) (l : List α) :
    (l.dropWhile p).length ≤ l.length := by
  induction l with
  | nil => simp
  | cons a l ih =>
    by_cases h : p a <;> simp [List.dropWhile_cons, h]
    omega

/-- Whether a logged keystroke is an `Incorrect` one. -/
def isIncorrectKS : KeyStrokeKind → Bool
  | KeyStrokeKind.incorrect _ => true
  | _ => false

/-- Spec-side description of the chart bucketing (spec §4.4): walk the log,
cut off the maximal consecutive run sharing the head's bucket key
`ceil(elapsed / timeStep)`, and emit one point per run: time
`key * timeStep`, the run's keystroke count, and its `Incorrect` count. -/
def bucketSeries (time_step : ℚ) (l : List (ℚ × KeyStrokeKind)) :
    List (ℚ × ℚ × ℚ) :=
  match l with
  | [] => []
  | p :: rest =>
    let k := bucketKey p.1 time_step
    let run := p :: rest.takeWhile fun q => bucketKey q.1 time_step == k
    ((k : ℚ) * time_step, (run.length : ℚ),
        ((run.filter fun q => isIncorrectKS q.2).length : ℚ))
      :: bucketSeries time_step (rest.dropWhile fun q => bucketKey q.1 time_step == k)
termination_by l.length
decreasing_by
  simp only [List.length_cons]
  have := dropWhile_length_le
    (fun q => bucketKey q.1 time_step == bucketKey p.1 time_step) rest
  omega

lemma groupByKey_cons_def {α : Type} (f : α → Nat) (a : α) (l : List α) :
    groupByKey f (a :: l) =
      match groupByKey f l with
      | [] => [(f a, [a])]
      | (k, g) :: rest =>
        if f a = k then (f a, a :: g) :: rest
        else (f a, [a]) :: (k, g) :: rest := rfl

lemma groupByKey_cons {α : Type} (f : α → Nat) (a : α) (l : List α) :
    groupByKey f (a :: l) =
      (f a, a :: l.takeWhile fun b => f b == f a)
        :: groupByKey f (l.dropWhile fun b => f b == f a) := by
  induction l generalizing a with
  | nil => simp [groupByKey]
  | cons b bs ih =>
    rw [groupByKey_cons_def]
    by_cases hfb : f b = f a
    · rw [ih b, hfb]
      simp [List.takeWhile_cons, List.dropWhile_cons, hfb]
    · have hb : (f b == f a) = false := by simp [hfb]
      have hne : ¬(f a = f b) := fun h => hfb h.symm
      rw [ih b]
      simp only [List.takeWhile_cons, List.dropWhile_cons, hb, if_neg hne]
      simp only [Bool.false_eq_true, if_false]
      rw [ih b]

lemma foldl_groupStep (g : List (ℚ × KeyStrokeKind)) :
    ∀ c e : ℚ, g.foldl groupStep (c, e) =
      (c + g.length, e + ((g.filter fun q => isIncorrectKS q.2).length : ℚ)) := by
  induction g with
  | nil =>
    intro c e
    simp
  | cons p g ih =>
    intro c e
    obtain ⟨t, ks⟩ := p
    cases ks <;> simp [groupStep, List.filter_cons, isIncorrectKS, ih] <;>
      push_cast <;> ring_nf <;> simp [add_comm, add_assoc, add_left_comm]

lemma groupCounts_eq (g : List (ℚ × KeyStrokeKind)) :
    groupCounts g =
      ((g.length : ℚ), ((g.filter fun q => isIncorrectKS q.2).length : ℚ)) := by
  simpa using foldl_groupStep g 0 0

lemma batch_key_strokes_cut (ts : ℚ) :
    ∀ (N : Nat) (ks : List (ℚ × KeyStrokeKind)), ks.length ≤ N →
      batch_key_strokes ks ts = bucketSeries ts ks := by
  intro N
  induction N with
  | zero =>
    intro ks h
    have hnil : ks = [] := List.eq_nil_of_length_eq_zero (Nat.le_zero.mp h)
    subst hnil
    simp [batch_key_strokes, groupByKey, bucketSeries]
  | succ N ih =>
    intro ks h
    match ks with
    | [] => simp [batch_key_strokes, groupByKey, bucketSeries]
    | p :: rest =>
      have hdw : (rest.dropWhile fun q =>
          bucketKey q.1 ts == bucketKey p.1 ts).length ≤ N := by
        have h1 := dropWhile_length_le
          (fun q => bucketKey q.1 ts == bucketKey p.1 ts) rest
        simp only [List.length_cons] at h
        omega
      rw [show bucketSeries ts (p :: rest) =
        ((bucketKey p.1 ts : ℚ) * ts,
          ((p :: rest.takeWhile fun q =>
              bucketKey q.1 ts == bucketKey p.1 ts).length : ℚ),
          (((p :: rest.takeWhile fun q => bucketKey q.1 ts == bucketKey p.1 ts).filter
              fun q => isIncorrectKS q.2).length : ℚ))
          :: bucketSeries ts (rest.dropWhile fun q =>
              bucketKey q.1 ts == bucketKey p.1 ts) from by
        rw [bucketSeries]]
      rw [batch_key_strokes, groupByKey_cons]
      simp only [List.map_cons]
      rw [show ((groupByKey (fun p => bucketKey p.1 ts) (rest.dropWhile fun b =>
          bucketKey b.1 ts == bucketKey p.1 ts)).map
            (fun g => ((g.1 : ℚ) * ts, (groupCounts g.2).1, (groupCounts g.2).2)))
          = batch_key_strokes (rest.dropWhile fun b =>
              bucketKey b.1 ts == bucketKey p.1 ts) ts from rfl]
      rw [ih _ hdw, groupCounts_eq]

/-- C5: the chart series construction.  `StatsState::new` uses the window
width `timeStep = max(duration/20, 1/2)`, maps every bucket to a raw-wpm
point normalized by `timeStep`, and emits an error point exactly for buckets
with a nonzero `Incorrect` count; `batch_key_strokes` itself groups maximal
consecutive runs of equal bucket key `ceil(elapsed/timeStep)` into single
buckets positioned at `key * timeStep` with the run's keystroke and
`Incorrect` counts (`bucketSeries`); and the documented concrete example
holds. -/
theorem C5_chart_series :
    (∀ (ks : List (ℚ × KeyStrokeKind)) (dur : ℚ) (inp corr : List Word),
      (StatsState.new ks dur inp corr).raw_wpms =
        (batch_key_strokes ks (max (dur / 20) (1 / 2))).map
          (fun t => (t.1, normalize_wpm t.2.1 (max (dur / 20) (1 / 2)))) ∧
      (StatsState.new ks dur inp corr).errors_wpms =
        (batch_key_strokes ks (max (dur / 20) (1 / 2))).filterMap
          (fun t =>
            if t.2.2 ≠ 0 then
              some (t.1, normalize_wpm t.2.2 (max (dur / 20) (1 / 2)))
            else none)) ∧
    (∀ (ks : List (ℚ × KeyStrokeKind)) (ts : ℚ),
      batch_key_strokes ks ts = bucketSeries ts ks) ∧
    batch_key_strokes
      [(1/10, KeyStrokeKind.correct 'a'), (1/2, KeyStrokeKind.correct 'a'),
       (4/5, KeyStrokeKind.space 0), (11/10, KeyStrokeKind.incorrect 'b'),
       (13/10, KeyStrokeKind.correct 'd')] 1 = [(1, 3, 0), (2, 2, 1)] := by
  refine ⟨fun ks dur inp corr => ⟨rfl, rfl⟩,
    fun ks ts => batch_key_strokes_cut ts ks.length ks le_rfl, ?_⟩
  have c01 : (⌈(1:ℚ)/10 / 1⌉ : ℤ) = 1 := by
    rw [Int.ceil_eq_iff]
    norm_num
  have c05 : (⌈(1:ℚ)/2 / 1⌉ : ℤ) = 1 := by
    rw [Int.ceil_eq_iff]
    norm_num
  have c08 : (⌈(4:ℚ)/5 / 1⌉ : ℤ) = 1 := by
    rw [Int.ceil_eq_iff]
    norm_num
  have c11 : (⌈(11:ℚ)/10 / 1⌉ : ℤ) = 2 := by
    rw [Int.ceil_eq_iff]
    norm_num
  have c13 : (⌈(13:ℚ)/10 / 1⌉ : ℤ) = 2 := by
    rw [Int.ceil_eq_iff]
    norm_num
  have k01 : bucketKey (1/10) 1 = 1 := by
    rw [bucketKey, c01]
    rfl
  have k05 : bucketKey (1/2) 1 = 1 := by
    rw [bucketKey, c05]
    rfl
  have k08 : bucketKey (4/5) 1 = 1 := by
    rw [bucketKey, c08]
    rfl
  have k11 : bucketKey (11/10) 1 = 2 := by
    rw [bucketKey, c11]
    rfl
  have k13 : bucketKey (13/10) 1 = 2 := by
    rw [bucketKey, c13]
    rfl
  simp only [batch_key_strokes, groupByKey, k01, k05, k08, k11, k13]
  norm_num [groupCounts, groupStep]

/-! ## Field-preservation lemmas for the buffer operations -/

lemma updateLast_length (f : Word → Word) (l : List Word) :
    (updateLast f l).length = l.length := by
  induction l with
  | nil => rfl
  | cons a l ih =>
    cases l with
    | nil => rfl
    | cons b bs => simpa [updateLast] using ih

lemma remove_empty_start (s : TypingState) :
    s.remove_empty.start_time = s.start_time := by
  unfold TypingState.remove_empty
  split_ifs <;> rfl

lemma remove_empty_keys (s : TypingState) :
    s.remove_empty.key_strokes = s.key_strokes := by
  unfold TypingState.remove_empty
  split_ifs <;> rfl

lemma remove_char_start (s : TypingState) :
    s.remove_char.start_time = s.start_time := by
  cases h : s.written_words.getLast? with
  | none => simp [TypingState.remove_char, h]
  | some w => cases w <;> simp [TypingState.remove_char, h, remove_empty_start]

lemma remove_char_keys (s : TypingState) :
    s.remove_char.key_strokes = s.key_strokes := by
  cases h : s.written_words.getLast? with
  | none => simp [TypingState.remove_char, h]
  | some w => cases w <;> simp [TypingState.remove_char, h, remove_empty_keys]

lemma remove_word_start (s : TypingState) :
    s.remove_word.start_time = s.start_time := by
  cases h : s.written_words.getLast? with
  | none => simp [TypingState.remove_word, h]
  | some w => cases w <;> simp [TypingState.remove_word, h, remove_empty_start]

lemma remove_word_keys (s : TypingState) :
    s.remove_word.key_strokes = s.key_strokes := by
  cases h : s.written_words.getLast? with
  | none => simp [TypingState.remove_word, h]
  | some w => cases w <;> simp [TypingState.remove_word, h, remove_empty_keys]

lemma add_char_start (s : TypingState) (c : Char) (el : ℚ) :
    (s.add_char c el).start_time = s.start_time := by
  cases h : s.written_words.getLast? <;> simp [TypingState.add_char, h]

lemma add_space_start (s : TypingState) (el : ℚ) :
    (s.add_space el).start_time = s.start_time := rfl

/-! ## C6: per-tick termination -/

/-- C6: with the timer started (`start_time = some st`), `update` finalizes
exactly when the mode's bound is strictly exceeded — elapsed time `now - st`
strictly above `d` in `Duration(d)` mode, number of input buffers strictly
above `n` in `WordCount(n)` mode — and the `test_duration` handed to the
snapshot (the WPM normalization reference) is the nominal `d` in duration
mode but the actual elapsed `now - st` in word-count mode. -/
theorem C6_update_termination :
    ∀ (s : TypingState) (now st : ℚ), s.start_time = some st →
      ((∃ stats, s.update now = StepResult.finalized stats) ↔
        ((∃ d, s.mode = TestMode.duration d ∧ now - st > d) ∨
         (∃ n, s.mode = TestMode.words n ∧ s.written_words.length > n))) ∧
      (∀ d : ℚ, s.mode = TestMode.duration d → now - st > d →
        s.update now = StepResult.finalized
          (StatsState.new s.key_strokes d s.word_list s.written_words)) ∧
      (∀ n : Nat, s.mode = TestMode.words n → s.written_words.length > n →
        s.update now = StepResult.finalized
          (StatsState.new s.key_strokes (now - st) s.word_list s.written_words)) := by
  intro s now st hst
  refine ⟨?_, ?_, ?_⟩
  · cases hm : s.mode with
    | duration d =>
      by_cases hc : now - st > d <;> simp [TypingState.update, hst, hm, hc]
    | words n =>
      by_cases hc : s.written_words.length > n <;>
        simp [TypingState.update, hst, hm, hc]
  · intro d hm hc
    simp [TypingState.update, hst, hm, hc]
  · intro n hm hc
    simp [TypingState.update, hst, hm, hc]

/-- Witness for `C6_update_termination`: a finishing duration session, a
finishing word-count session, and the termination iff, all at concrete
inputs. -/
theorem C6_update_termination_witness :
    TypingState.update
        { written_words := [[]], start_time := some 0, rows := [0],
          word_list := [['a']], key_strokes := [], mode := TestMode.duration 30 } 31
      = StepResult.finalized (StatsState.new [] 30 [['a']] [[]]) ∧
    TypingState.update
        { written_words := [[], []], start_time := some 0, rows := [0],
          word_list := [['a']], key_strokes := [], mode := TestMode.words 1 } 9
      = StepResult.finalized (StatsState.new [] ((9 : ℚ) - 0) [['a']] [[], []]) ∧
    (∃ stats,
      TypingState.update
          { written_words := [[]], start_time := some 0, rows := [0],
            word_list := [['a']], key_strokes := [], mode := TestMode.duration 30 } 31
        = StepResult.finalized stats) := by
  refine ⟨?_, ?_, ?_⟩
  · exact (C6_update_termination _ 31 0 rfl).2.1 30 rfl (by norm_num)
  · exact (C6_update_termination _ 9 0 rfl).2.2 1 rfl (by norm_num)
  · exact (C6_update_termination _ 31 0 rfl).1.mpr (Or.inl ⟨30, rfl, by norm_num⟩)

/-! ## C7: when the start instant is set -/

/-- C7 counterexample: the claim says no key press other than a printable
character or space sets the session-start instant.  In `handle_event` the
source runs `start_time.get_or_insert_with(Instant::now)` on *every* press
before dispatching on the key code, so a first press of backspace (which
types nothing) already sets the start instant. -/
theorem C7_backspace_sets_start :
    (TypingState.new [['a']] (TestMode.duration 30)).start_time = none ∧
    ((TypingState.new [['a']] (TestMode.duration 30)).handle_event
        ⟨KeyEventKind.press, KeyCode.backspace, false⟩ 3).start_time = some 3 :=
  ⟨rfl, rfl⟩

/-- C7 (amended): the start instant is unset and the keystroke log empty at
construction; the *first key press of any code* — including backspace and
unhandled keys — sets the start instant (to the press's wall-clock time if it
was unset); non-press events change nothing; with the start instant unset the
per-tick `update` never finalizes (the timer does not run); and
backspace-like or unhandled presses record no keystroke. -/
theorem C7_start_instant :
    (∀ (wl : List Word) (mode : TestMode),
      (TypingState.new wl mode).start_time = none ∧
      (TypingState.new wl mode).key_strokes = []) ∧
    (∀ (s : TypingState) (e : KeyEvent) (t : ℚ),
      e.kind = KeyEventKind.press →
      (s.handle_event e t).start_time = some (s.start_time.getD t)) ∧
    (∀ (s : TypingState) (e : KeyEvent) (t : ℚ),
      e.kind ≠ KeyEventKind.press → s.handle_event e t = s) ∧
    (∀ (s : TypingState) (now : ℚ),
      s.start_time = none → s.update now = StepResult.active s) ∧
    (∀ (s : TypingState) (e : KeyEvent) (t : ℚ),
      isRemoveKey e = true ∨ e.code = KeyCode.other →
      (s.handle_event e t).key_strokes = s.key_strokes) := by
  refine ⟨fun wl mode => ⟨rfl, rfl⟩, ?_, ?_, ?_, ?_⟩
  · intro s e t hk
    simp only [TypingState.handle_event, hk, if_true, eq_self_iff_true]
    cases e.code with
    | char c =>
      by_cases h1 : c = 'w' ∧ e.ctrl
      · simp [h1, remove_word_start]
      · by_cases h2 : '!' ≤ c ∧ c ≤ '~'
        · simp [h1, h2, add_char_start]
        · by_cases h3 : c = ' '
          · simp [h1, h2, h3, add_space_start]
          · simp [h1, h2, h3]
    | backspace =>
      by_cases hc : e.ctrl <;> simp [hc, remove_word_start, remove_char_start]
    | other => simp
  · intro s e t hk
    simp [TypingState.handle_event, hk]
  · intro s now hs
    simp [TypingState.update, hs]
  · intro s e t h
    by_cases hk : e.kind = KeyEventKind.press
    · simp only [TypingState.handle_event, hk, if_true, eq_self_iff_true]
      rcases h with h | h
      · cases hcode : e.code with
        | char c =>
          simp only [isRemoveKey, hcode, Bool.and_eq_true, beq_iff_eq] at h
          simp [h.1, h.2, remove_word_keys]
        | backspace =>
          by_cases hc : e.ctrl <;> simp [hc, remove_word_keys, remove_char_keys]
        | other => simp [isRemoveKey, hcode] at h
      · simp [h]
    · simp [TypingState.handle_event, hk]

/-- Witness for `C7_start_instant`: its conjuncts at concrete inputs. -/
theorem C7_start_instant_witness :
    ((TypingState.new [['a']] (TestMode.duration 30)).handle_event
        ⟨KeyEventKind.press, KeyCode.char 'a', false⟩ 1).start_time =
      some ((none : Option ℚ).getD 1) ∧
    (TypingState.new [['a']] (TestMode.duration 30)).handle_event
        ⟨KeyEventKind.release, KeyCode.char 'a', false⟩ 1 =
      TypingState.new [['a']] (TestMode.duration 30) ∧
    TypingState.update (TypingState.new [['a']] (TestMode.duration 30)) 5 =
      StepResult.active (TypingState.new [['a']] (TestMode.duration 30)) ∧
    ((TypingState.new [['a']] (TestMode.duration 30)).handle_event
        ⟨KeyEventKind.press, KeyCode.backspace, false⟩ 1).key_strokes = [] := by
  refine ⟨?_, ?_, ?_, ?_⟩
  · exact C7_start_instant.2.1 _ _ 1 rfl
  · exact C7_start_instant.2.2.1 _ _ 1 (by simp)
  · exact C7_start_instant.2.2.2.1 _ 5 rfl
  · exact C7_start_instant.2.2.2.2 _ _ 1 (Or.inl rfl)
lemma spaceCount_append (a b : List (ℚ × KeyStrokeKind)) :
    spaceCount (a ++ b) = spaceCount a + spaceCount b := by
  simp [spaceCount, List.filter_append]

lemma add_char_len (s : TypingState) (c : Char) (el : ℚ) :
    (s.add_char c el).written_words.length = s.written_words.length := by
  cases h : s.written_words.getLast? <;>
    simp [TypingState.add_char, h, updateLast_length]

lemma add_char_spaces (s : TypingState) (c : Char) (el : ℚ) :
    spaceCount (s.add_char c el).key_strokes = spaceCount s.key_strokes := by
  cases h : s.written_words.getLast? with
  | none => simp [TypingState.add_char, h]
  | some w =>
    simp only [TypingState.add_char, h, spaceCount_append]
    split_ifs <;> simp [spaceCount]

lemma add_space_len (s : TypingState) (el : ℚ) :
    (s.add_space el).written_words.length = s.written_words.length + 1 := by
  simp [TypingState.add_space]

lemma add_space_spaces (s : TypingState) (el : ℚ) :
    spaceCount (s.add_space el).key_strokes = spaceCount s.key_strokes + 1 := by
  simp [TypingState.add_space, spaceCount_append, spaceCount]

lemma remove_empty_cases (s : TypingState) :
    s.remove_empty.written_words = s.written_words ∨
    (s.remove_empty.written_words = s.written_words.dropLast ∧
      2 ≤ s.written_words.length) := by
  unfold TypingState.remove_empty
  split_ifs with h1 h2
  · right
    exact ⟨rfl, h1⟩
  · left
    rfl
  · left
    rfl

lemma remove_char_cases (s : TypingState)
    (hpos : 1 ≤ s.written_words.length) :
    s.remove_char.written_words.length = s.written_words.length ∨
    (s.remove_char.written_words.length + 1 = s.written_words.length ∧
      2 ≤ s.written_words.length) := by
  cases h : s.written_words.getLast? with
  | none =>
    rw [List.getLast?_eq_none_iff] at h
    simp [h] at hpos
  | some w =>
    cases w with
    | nil =>
      have := remove_empty_cases s
      simp only [TypingState.remove_char, h]
      rcases this with h1 | ⟨h1, h2⟩
      · left
        rw [h1]
      · right
        refine ⟨?_, h2⟩
        rw [h1, List.length_dropLast]
        omega
    | cons c cs =>
      left
      simp [TypingState.remove_char, h, updateLast_length]

lemma remove_char_len_of_ne (s : TypingState)
    (hne : s.written_words.getLast? ≠ some []) :
    s.remove_char.written_words.length = s.written_words.length := by
  cases h : s.written_words.getLast? with
  | none => simp [TypingState.remove_char, h]
  | some w =>
    cases w with
    | nil => exact absurd h hne
    | cons c cs => simp [TypingState.remove_char, h, updateLast_length]

lemma remove_word_cases (s : TypingState)
    (hpos : 1 ≤ s.written_words.length) :
    s.remove_word.written_words.length = s.written_words.length ∨
    (s.remove_word.written_words.length + 1 = s.written_words.length ∧
      2 ≤ s.written_words.length) := by
  cases h : s.written_words.getLast? with
  | none =>
    rw [List.getLast?_eq_none_iff] at h
    simp [h] at hpos
  | some w =>
    cases w with
    | nil =>
      have := remove_empty_cases s
      simp only [TypingState.remove_word, h]
      rcases this with h1 | ⟨h1, h2⟩
      · left
        simp [updateLast_length, h1]
      · right
        refine ⟨?_, h2⟩
        simp only [updateLast_length, h1, List.length_dropLast]
        omega
    | cons c cs =>
      left
      simp [TypingState.remove_word, h, updateLast_length]

lemma remove_word_len_of_ne (s : TypingState)
    (hne : s.written_words.getLast? ≠ some []) :
    s.remove_word.written_words.length = s.written_words.length := by
  cases h : s.written_words.getLast? with
  | none => simp [TypingState.remove_word, h]
  | some w =>
    cases w with
    | nil => exact absurd h hne
    | cons c cs => simp [TypingState.remove_word, h, updateLast_length]

lemma handle_event_count (s : TypingState) (e : KeyEvent) (t : ℚ)
    (hpos : 1 ≤ s.written_words.length) :
    1 ≤ (s.handle_event e t).written_words.length ∧
    (s.handle_event e t).written_words.length + spaceCount s.key_strokes ≤
      s.written_words.length + spaceCount (s.handle_event e t).key_strokes ∧
    ((isRemoveKey e = true → s.written_words.getLast? ≠ some []) →
      (s.handle_event e t).written_words.length + spaceCount s.key_strokes =
        s.written_words.length + spaceCount (s.handle_event e t).key_strokes) := by
  by_cases hk : e.kind = KeyEventKind.press
  · simp only [TypingState.handle_event, hk, if_true, eq_self_iff_true]
    set s1 : TypingState := { s with start_time := some (s.start_time.getD t) } with hs1
    have hw1 : s1.written_words = s.written_words := rfl
    have hkk : s1.key_strokes = s.key_strokes := rfl
    have hpos1 : 1 ≤ s1.written_words.length := hpos
    have hlast1 : s1.written_words.getLast? = s.written_words.getLast? := rfl
    cases hcode : e.code with
    | char c =>
      dsimp only
      by_cases h1 : c = 'w' ∧ e.ctrl
      · rw [if_pos h1]
        have hremk : isRemoveKey e = true := by
          simp [isRemoveKey, hcode, h1.1, h1.2]
        have hcases := remove_word_cases s1 hpos1
        have hkeys := remove_word_keys s1
        rw [hw1] at hcases
        rw [hkk] at hkeys
        refine ⟨?_, ?_, ?_⟩
        · rcases hcases with h | ⟨h, hh⟩ <;> omega
        · rw [hkeys]
          rcases hcases with h | ⟨h, hh⟩ <;> omega
        · intro hsafe
          rw [hkeys, remove_word_len_of_ne s1 (by rw [hlast1]; exact hsafe hremk),
            hw1]
      · rw [if_neg h1]
        by_cases h2 : '!' ≤ c ∧ c ≤ '~'
        · rw [if_pos h2]
          have hlen := add_char_len s1 c (t - s.start_time.getD t)
          have hsp := add_char_spaces s1 c (t - s.start_time.getD t)
          rw [hw1] at hlen
          rw [hkk] at hsp
          refine ⟨by omega, by omega, fun _ => by omega⟩
        · rw [if_neg h2]
          by_cases h3 : c = ' '
          · rw [if_pos h3]
            have hlen := add_space_len s1 (t - s.start_time.getD t)
            have hsp := add_space_spaces s1 (t - s.start_time.getD t)
            rw [hw1] at hlen
            rw [hkk] at hsp
            refine ⟨by omega, by omega, fun _ => by omega⟩
          · rw [if_neg h3, hw1, hkk]
            exact ⟨hpos, by omega, fun _ => by omega⟩
    | backspace =>
      dsimp only
      by_cases hc : e.ctrl
      · rw [if_pos hc]
        have hcases := remove_word_cases s1 hpos1
        have hkeys := remove_word_keys s1
        rw [hw1] at hcases
        rw [hkk] at hkeys
        refine ⟨?_, ?_, ?_⟩
        · rcases hcases with h | ⟨h, hh⟩ <;> omega
        · rw [hkeys]
          rcases hcases with h | ⟨h, hh⟩ <;> omega
        · intro hsafe
          rw [hkeys, remove_word_len_of_ne s1
            (by rw [hlast1]; exact hsafe (by simp [isRemoveKey, hcode])), hw1]
      · rw [if_neg hc]
        have hcases := remove_char_cases s1 hpos1
        have hkeys := remove_char_keys s1
        rw [hw1] at hcases
        rw [hkk] at hkeys
        refine ⟨?_, ?_, ?_⟩
        · rcases hcases with h | ⟨h, hh⟩ <;> omega
        · rw [hkeys]
          rcases hcases with h | ⟨h, hh⟩ <;> omega
        · intro hsafe
          rw [hkeys, remove_char_len_of_ne s1
            (by rw [hlast1]; exact hsafe (by simp [isRemoveKey, hcode])), hw1]
    | other =>
      dsimp only
      rw [hw1, hkk]
      exact ⟨hpos, by omega, fun _ => by omega⟩
  · have hu : s.handle_event e t = s := by
      simp [TypingState.handle_event, hk]
    rw [hu]
    exact ⟨hpos, by omega, fun _ => by omega⟩

lemma applyEvents_cons (p : ℚ × KeyEvent) (evs : List (ℚ × KeyEvent))
    (s : TypingState) :
    applyEvents (p :: evs) s = applyEvents evs (s.handle_event p.2 p.1) := rfl

lemma applyEvents_count (evs : List (ℚ × KeyEvent)) :
    ∀ s : TypingState, 1 ≤ s.written_words.length →
      1 ≤ (applyEvents evs s).written_words.length ∧
      (applyEvents evs s).written_words.length + spaceCount s.key_strokes ≤
        s.written_words.length + spaceCount (applyEvents evs s).key_strokes := by
  induction evs with
  | nil =>
    intro s hpos
    exact ⟨hpos, le_refl _⟩
  | cons p evs ih =>
    intro s hpos
    obtain ⟨h1, h2, _⟩ := handle_event_count s p.2 p.1 hpos
    obtain ⟨h3, h4⟩ := ih (s.handle_event p.2 p.1) h1
    rw [applyEvents_cons]
    exact ⟨h3, by omega⟩

lemma applyEvents_eq_count (evs : List (ℚ × KeyEvent)) :
    ∀ s : TypingState, 1 ≤ s.written_words.length →
      noEmptyBackspace s evs = true →
      (applyEvents evs s).written_words.length + spaceCount s.key_strokes =
        s.written_words.length + spaceCount (applyEvents evs s).key_strokes := by
  induction evs with
  | nil =>
    intro s hpos _
    rfl
  | cons p evs ih =>
    intro s hpos hsafe
    obtain ⟨t, e⟩ := p
    rw [noEmptyBackspace, Bool.and_eq_true] at hsafe
    obtain ⟨hhead, htail⟩ := hsafe
    have hcond : isRemoveKey e = true → e.kind = KeyEventKind.press →
        s.written_words.getLast? ≠ some [] := by
      intro hr hp hl
      simp [hp, hr, hl] at hhead
    obtain ⟨h1, _, h3⟩ := handle_event_count s e t hpos
    rw [applyEvents_cons]
    have heq := ih (s.handle_event e t) h1 htail
    dsimp only
    by_cases hp : e.kind = KeyEventKind.press
    · have h3' := h3 (fun hr => hcond hr hp)
      omega
    · have hu : s.handle_event e t = s := by
        simp [TypingState.handle_event, hp]
      rw [hu] at heq ⊢
      omega

/-- C2 (amended): for every sequence of key events applied to a fresh
session, at every intermediate state the number of input buffers is *at most*
the number of word-boundary (`Space`) events in the log plus one, with
equality whenever no backspace-like key (backspace or ctrl-`w`) was ever
pressed while the current buffer was empty.  (Equality fails in general: a
backspace on an empty buffer pops a buffer while the append-only log keeps
its `Space` event, see the counterexample.) -/
theorem C2_buffer_boundary_invariant :
    (∀ (wl : List Word) (mode : TestMode) (evs : List (ℚ × KeyEvent)),
      (applyEvents evs (TypingState.new wl mode)).written_words.length ≤
        spaceCount (applyEvents evs (TypingState.new wl mode)).key_strokes + 1) ∧
    (∀ (wl : List Word) (mode : TestMode) (evs : List (ℚ × KeyEvent)),
      noEmptyBackspace (TypingState.new wl mode) evs = true →
      (applyEvents evs (TypingState.new wl mode)).written_words.length =
        spaceCount (applyEvents evs (TypingState.new wl mode)).key_strokes + 1) := by
  constructor
  · intro wl mode evs
    have h := applyEvents_count evs (TypingState.new wl mode) (by simp [TypingState.new])
    have h1 : (TypingState.new wl mode).written_words.length = 1 := by
      simp [TypingState.new]
    have h2 : spaceCount (TypingState.new wl mode).key_strokes = 0 := by
      simp [TypingState.new, spaceCount]
    omega
  · intro wl mode evs hsafe
    have h := applyEvents_eq_count evs (TypingState.new wl mode)
      (by simp [TypingState.new]) hsafe
    have h1 : (TypingState.new wl mode).written_words.length = 1 := by
      simp [TypingState.new]
    have h2 : spaceCount (TypingState.new wl mode).key_strokes = 0 := by
      simp [TypingState.new, spaceCount]
    omega

/-- C2 counterexample: target `["ab"]`, events `'a'`, space, backspace.  The
backspace finds the current buffer empty and the previous buffer `"a" ≠ "ab"`,
so the buffer is popped, while the `Space` event stays in the log:
`InputBuffers.length − 1 = 0` but the log holds one word-boundary event. -/
theorem C2_pop_breaks_equality :
    ¬((applyEvents
        [(0, ⟨KeyEventKind.press, KeyCode.char 'a', false⟩),
         (1, ⟨KeyEventKind.press, KeyCode.char ' ', false⟩),
         (2, ⟨KeyEventKind.press, KeyCode.backspace, false⟩)]
        (TypingState.new [['a','b']] (TestMode.duration 30))).written_words.length - 1 =
      spaceCount (applyEvents
        [(0, ⟨KeyEventKind.press, KeyCode.char 'a', false⟩),
         (1, ⟨KeyEventKind.press, KeyCode.char ' ', false⟩),
         (2, ⟨KeyEventKind.press, KeyCode.backspace, false⟩)]
        (TypingState.new [['a','b']] (TestMode.duration 30))).key_strokes) := by
  decide

/-- Witness for `C2_buffer_boundary_invariant`: both conjuncts at a concrete
trace (one typed character, one space), with the no-empty-backspace
side condition discharged by evaluation. -/
theorem C2_buffer_boundary_invariant_witness :
    (applyEvents [(0, ⟨KeyEventKind.press, KeyCode.char 'a', false⟩),
        (1, ⟨KeyEventKind.press, KeyCode.char ' ', false⟩)]
      (TypingState.new [['a']] (TestMode.duration 30))).written_words.length ≤
      spaceCount (applyEvents [(0, ⟨KeyEventKind.press, KeyCode.char 'a', false⟩),
          (1, ⟨KeyEventKind.press, KeyCode.char ' ', false⟩)]
        (TypingState.new [['a']] (TestMode.duration 30))).key_strokes + 1 ∧
    (applyEvents [(0, ⟨KeyEventKind.press, KeyCode.char 'a', false⟩),
        (1, ⟨KeyEventKind.press, KeyCode.char ' ', false⟩)]
      (TypingState.new [['a']] (TestMode.duration 30))).written_words.length =
      spaceCount (applyEvents [(0, ⟨KeyEventKind.press, KeyCode.char 'a', false⟩),
          (1, ⟨KeyEventKind.press, KeyCode.char ' ', false⟩)]
        (TypingState.new [['a']] (TestMode.duration 30))).key_strokes + 1 :=
  ⟨C2_buffer_boundary_invariant.1 [['a']] (TestMode.duration 30) _,
   C2_buffer_boundary_invariant.2 [['a']] (TestMode.duration 30) _ (by decide)⟩

/-! ## C9: bounds of target-word-list indexing -/

/-- C9 (amended): in `WordCount(n)` mode the word list is resized to exactly
`n` entries at construction; and in every reachable state whose number of
input buffers does not exceed the word-list length, the position
`activeIndex = written_words.length - 1` at which `add_char` and `add_space`
read the target word list is strictly below the list's length.  (This bound
on the buffer count is *not* maintained in Duration mode, see the
counterexample: typing more spaces than there are target words drives the
index to the list length.) -/
theorem C9_word_list_index_bounds :
    (∀ (wl : List Word) (n : Nat),
      (TypingState.new wl (TestMode.words n)).word_list.length = n) ∧
    (∀ (evs : List (ℚ × KeyEvent)) (wl : List Word) (mode : TestMode),
      (applyEvents evs (TypingState.new wl mode)).written_words.length ≤
        (applyEvents evs (TypingState.new wl mode)).word_list.length →
      (applyEvents evs (TypingState.new wl mode)).activeIndex <
        (applyEvents evs (TypingState.new wl mode)).word_list.length) := by
  constructor
  · intro wl n
    simp [TypingState.new, listResize]
    omega
  · intro evs wl mode hle
    have hpos := (applyEvents_count evs (TypingState.new wl mode)
      (by simp [TypingState.new])).1
    unfold TypingState.activeIndex
    omega

/-- C9 counterexample: in `Duration` mode with the single target word `"a"`,
one space is accepted and reaches a state with two buffers but one target
word: `activeIndex = 1` is *not* strictly below the word-list length `1`, and
a further space is still accepted (it logs a keystroke), indexing the word
list out of bounds in the source (`self.word_list[i]` panics). -/
theorem C9_duration_mode_index_escape :
    ¬((applyEvents [(0, ⟨KeyEventKind.press, KeyCode.char ' ', false⟩)]
        (TypingState.new [['a']] (TestMode.duration 30))).activeIndex <
      (applyEvents [(0, ⟨KeyEventKind.press, KeyCode.char ' ', false⟩)]
        (TypingState.new [['a']] (TestMode.duration 30))).word_list.length) ∧
    ((applyEvents [(0, ⟨KeyEventKind.press, KeyCode.char ' ', false⟩)]
        (TypingState.new [['a']] (TestMode.duration 30))).handle_event
          ⟨KeyEventKind.press, KeyCode.char ' ', false⟩ 1).key_strokes.length = 2 := by
  exact ⟨by decide, by decide⟩

/-- Witness for `C9_word_list_index_bounds`: the in-bounds statement applied
to the concrete trace of one typed character in word-count mode. -/
theorem C9_word_list_index_bounds_witness :
    (applyEvents [(0, ⟨KeyEventKind.press, KeyCode.char 'a', false⟩)]
        (TypingState.new [['a']] (TestMode.words 1))).activeIndex <
      (applyEvents [(0, ⟨KeyEventKind.press, KeyCode.char 'a', false⟩)]
        (TypingState.new [['a']] (TestMode.words 1))).word_list.length :=
  C9_word_list_index_bounds.2
    [(0, ⟨KeyEventKind.press, KeyCode.char 'a', false⟩)]
    [['a']] (TestMode.words 1) (by decide)
lemma updateLast_of_getLast (f : Word → Word) (l : List Word) (w : Word)
    (h : l.getLast? = some w) :
    updateLast f l = l.dropLast ++ [f w] := by
  induction l with
  | nil => simp at h
  | cons a l ih =>
    cases l with
    | nil =>
      simp only [List.getLast?_singleton, Option.some.injEq] at h
      subst h
      rfl
    | cons b bs =>
      have h' : (b :: bs).getLast? = some w := by
        rwa [List.getLast?_cons_cons] at h
      simp [updateLast, ih h']

lemma updateLast_const_id (l : List Word) (h : l.getLast? = some []) :
    updateLast (fun _ => []) l = l := by
  induction l with
  | nil => simp at h
  | cons a l ih =>
    cases l with
    | nil =>
      simp only [List.getLast?_singleton, Option.some.injEq] at h
      subst h
      rfl
    | cons b bs =>
      have h' : (b :: bs).getLast? = some [] := by
        rwa [List.getLast?_cons_cons] at h
      simp [updateLast, ih h']

/-- C8 (amended): backspace with an empty current buffer pops the buffer iff
the previous buffer differs from its target (otherwise no change); with a
non-empty buffer it removes that buffer's last character; ctrl-backspace
clears the current word; and when the current word is already empty,
ctrl-backspace reopens-and-clears the previous word *only if* that previous
word does not exactly equal its target — otherwise it leaves the state
unchanged (this guard is the amendment; the claim stated the reopening
unconditionally). -/
theorem C8_backspace_semantics :
    (∀ s : TypingState, s.written_words.getLast? = some [] →
      2 ≤ s.written_words.length →
      s.remove_char =
        (if s.written_words.getD (s.written_words.length - 2) [] ≠
            s.word_list.getD (s.written_words.length - 2) [] then
          { s with written_words := s.written_words.dropLast }
        else s)) ∧
    (∀ s : TypingState, s.written_words.getLast? = some [] →
      s.written_words.length = 1 → s.remove_char = s) ∧
    (∀ (s : TypingState) (c : Char) (cs : Word),
      s.written_words.getLast? = some (c :: cs) →
      (s.remove_char).written_words =
        s.written_words.dropLast ++ [(c :: cs).dropLast]) ∧
    (∀ (s : TypingState) (c : Char) (cs : Word),
      s.written_words.getLast? = some (c :: cs) →
      (s.remove_word).written_words = s.written_words.dropLast ++ [[]]) ∧
    (∀ s : TypingState, s.written_words.getLast? = some [] →
      2 ≤ s.written_words.length →
      s.written_words.getD (s.written_words.length - 2) [] ≠
        s.word_list.getD (s.written_words.length - 2) [] →
      (s.remove_word).written_words =
        s.written_words.dropLast.dropLast ++ [[]]) ∧
    (∀ s : TypingState, s.written_words.getLast? = some [] →
      (2 ≤ s.written_words.length →
        s.written_words.getD (s.written_words.length - 2) [] =
          s.word_list.getD (s.written_words.length - 2) []) →
      s.remove_word = s) := by
  refine ⟨?_, ?_, ?_, ?_, ?_, ?_⟩
  · intro s hlast hlen
    have h1 : 1 < s.written_words.length := hlen
    simp only [TypingState.remove_char, hlast, TypingState.remove_empty, if_pos h1]
  · intro s hlast hlen
    have h1 : ¬(1 < s.written_words.length) := by omega
    simp only [TypingState.remove_char, hlast, TypingState.remove_empty, if_neg h1]
  · intro s c cs hlast
    simp only [TypingState.remove_char, hlast]
    rw [updateLast_of_getLast List.dropLast s.written_words (c :: cs) hlast]
  · intro s c cs hlast
    simp only [TypingState.remove_word, hlast]
    rw [updateLast_of_getLast (fun _ => []) s.written_words (c :: cs) hlast]
  · intro s hlast hlen hne
    have h1 : 1 < s.written_words.length := hlen
    simp only [TypingState.remove_word, hlast, TypingState.remove_empty,
      if_pos h1, if_pos hne]
    have hdl : s.written_words.dropLast.getLast? = some
        (s.written_words.dropLast.getLast (by
          have := List.length_dropLast s.written_words
          intro hc
          rw [hc] at this
          simp at this
          omega)) := List.getLast?_eq_getLast _ _
    rw [updateLast_of_getLast (fun _ => []) _ _ hdl]
  · intro s hlast heq
    by_cases h1 : 1 < s.written_words.length
    · have hcond : ¬(s.written_words.getD (s.written_words.length - 2) [] ≠
          s.word_list.getD (s.written_words.length - 2) []) :=
        fun hne => hne (heq h1)
      simp only [TypingState.remove_word, hlast, TypingState.remove_empty,
        if_pos h1, if_neg hcond]
      rw [updateLast_const_id _ hlast]
    · simp only [TypingState.remove_word, hlast, TypingState.remove_empty,
        if_neg h1]
      rw [updateLast_const_id _ hlast]

/-- C8 counterexample: ctrl-backspace with the current buffer empty and the
previous buffer exactly equal to its target (`"ab"` = `"ab"`).  The claim says
the previous word is reopened and cleared; the code's `remove_empty` guard
refuses to pop a correctly-completed word, so the state is left completely
unchanged. -/
theorem C8_ctrl_backspace_keeps_correct_word :
    TypingState.remove_word
        { written_words := [['a','b'], []], start_time := some 0, rows := [0],
          word_list := [['a','b']], key_strokes := [], mode := TestMode.duration 30 } =
      { written_words := [['a','b'], []], start_time := some 0, rows := [0],
        word_list := [['a','b']], key_strokes := [], mode := TestMode.duration 30 } := by
  have h := C8_backspace_semantics.2.2.2.2.2
    { written_words := [['a','b'], []], start_time := some 0, rows := [0],
      word_list := [['a','b']], key_strokes := [], mode := TestMode.duration 30 }
    rfl (fun _ => rfl)
  exact h

/-- Witness for `C8_backspace_semantics`: each conjunct applied at a concrete
state, discharging the hypotheses by evaluation. -/
theorem C8_backspace_semantics_witness :
    TypingState.remove_char
        { written_words := [['x'], []], start_time := none, rows := [0],
          word_list := [['a','b']], key_strokes := [], mode := TestMode.duration 30 } =
      (if ({ written_words := [['x'], []], start_time := none, rows := [0],
              word_list := [['a','b']], key_strokes := [],
              mode := TestMode.duration 30 } : TypingState).written_words.getD 0 [] ≠
          ({ written_words := [['x'], []], start_time := none, rows := [0],
              word_list := [['a','b']], key_strokes := [],
              mode := TestMode.duration 30 } : TypingState).word_list.getD 0 [] then
        { written_words := [['x']], start_time := none, rows := [0],
          word_list := [['a','b']], key_strokes := [], mode := TestMode.duration 30 }
      else
        { written_words := [['x'], []], start_time := none, rows := [0],
          word_list := [['a','b']], key_strokes := [], mode := TestMode.duration 30 }) ∧
    TypingState.remove_char
        { written_words := [[]], start_time := none, rows := [0],
          word_list := [['a']], key_strokes := [], mode := TestMode.duration 30 } =
      { written_words := [[]], start_time := none, rows := [0],
        word_list := [['a']], key_strokes := [], mode := TestMode.duration 30 } ∧
    (TypingState.remove_char
        { written_words := [['a','b']], start_time := none, rows := [0],
          word_list := [['a','b']], key_strokes := [],
          mode := TestMode.duration 30 }).written_words = [['a']] ∧
    (TypingState.remove_word
        { written_words := [['a','b']], start_time := none, rows := [0],
          word_list := [['a','b']], key_strokes := [],
          mode := TestMode.duration 30 }).written_words = [[]] ∧
    (TypingState.remove_word
        { written_words := [['x'], []], start_time := none, rows := [0],
          word_list := [['a','b']], key_strokes := [],
          mode := TestMode.duration 30 }).written_words = [[]] := by
  refine ⟨?_, ?_, ?_, ?_, ?_⟩
  · have h := C8_backspace_semantics.1
      { written_words := [['x'], []], start_time := none, rows := [0],
        word_list := [['a','b']], key_strokes := [], mode := TestMode.duration 30 }
      rfl (by norm_num)
    simpa using h
  · exact C8_backspace_semantics.2.1
      { written_words := [[]], start_time := none, rows := [0],
        word_list := [['a']], key_strokes := [], mode := TestMode.duration 30 }
      rfl rfl
  · have h := C8_backspace_semantics.2.2.1
      { written_words := [['a','b']], start_time := none, rows := [0],
        word_list := [['a','b']], key_strokes := [], mode := TestMode.duration 30 }
      'a' ['b'] rfl
    simpa using h
  · have h := C8_backspace_semantics.2.2.2.1
      { written_words := [['a','b']], start_time := none, rows := [0],
        word_list := [['a','b']], key_strokes := [], mode := TestMode.duration 30 }
      'a' ['b'] rfl
    simpa using h
  · have h := C8_backspace_semantics.2.2.2.2.1
      { written_words := [['x'], []], start_time := none, rows := [0],
        word_list := [['a','b']], key_strokes := [], mode := TestMode.duration 30 }
      rfl (by norm_num) (by decide)
    simpa using h

/-! ## C10: layout re-render behaviour -/

lemma renderLoop_rows_ge (area : Rect) (lastIdx r0 : Nat) :
    ∀ (items : List (Word × Nat × Option Word)) (acc : LayoutAcc),
      (∀ r ∈ acc.newRows, r0 ≤ r) → (∀ it ∈ items, r0 ≤ it.2.1) →
      ∀ r ∈ (renderLoop area lastIdx items acc).newRows, r0 ≤ r := by
  intro items
  induction items with
  | nil =>
    intro acc hacc hit
    simpa [renderLoop] using hacc
  | cons it rest ih =>
    intro acc hacc hit
    obtain ⟨word, i, input⟩ := it
    have hi : r0 ≤ i := hit _ (List.mem_cons_self _ _)
    have hrest : ∀ x ∈ rest, r0 ≤ x.2.1 := fun x hx => hit x (List.mem_cons_of_mem _ hx)
    simp only [renderLoop]
    by_cases hw : acc.x + (combine_input input word).length > area.width
    · simp only [hw, if_true, eq_self_iff_true]
      by_cases hh : (acc.y + 1) ≥ area.height
      · simp only [hh, if_true, eq_self_iff_true]
        intro r hr
        simp only [List.mem_append, List.mem_singleton] at hr
        rcases hr with hr | hr
        · exact hacc r hr
        · exact hr ▸ hi
      · simp only [hh, if_false]
        apply ih
        · intro r hr
          by_cases hl : i = lastIdx ∧ acc.y + 1 ≥ 2
          · rw [if_pos hl] at hr
            have hr' := List.mem_of_mem_drop hr
            simp only [List.mem_append, List.mem_singleton] at hr'
            rcases hr' with h | h
            · exact hacc r h
            · exact h ▸ hi
          · rw [if_neg hl] at hr
            simp only [List.mem_append, List.mem_singleton] at hr
            rcases hr with h | h
            · exact hacc r h
            · exact h ▸ hi
        · exact hrest
    · simp only [hw, if_false]
      by_cases hh : acc.y ≥ area.height
      · simp only [hh, if_true, eq_self_iff_true]
        exact fun r hr => hacc r hr
      · simp only [hh, if_false]
        apply ih
        · intro r hr
          by_cases hl : i = lastIdx ∧ acc.y ≥ 2
          · rw [if_pos hl] at hr
            exact hacc r (List.mem_of_mem_drop hr)
          · rw [if_neg hl] at hr
            exact hacc r hr
        · exact hrest

/-- C10 (amended): the layout render is deterministic in the session data,
viewport and incoming first row start, the scroll position never moves
backwards (every row start the render leaves behind is at least the incoming
first row start), and re-rendering with session and viewport unchanged is
idempotent *provided* the render left the first row start unchanged; when
the render scrolled (dropped the first row start) the repeated render
produces different cell output, see the counterexample. -/
theorem C10_render_fixed_point :
    (∀ (area : Rect) (word_list written : List Word) (r0 : Nat),
      ∀ r ∈ (TypingWidget.render area word_list written r0).2, r0 ≤ r) ∧
    (∀ (area : Rect) (word_list written : List Word) (r0 : Nat),
      (TypingWidget.render area word_list written r0).2.headD 0 = r0 →
      TypingWidget.render area word_list written
          ((TypingWidget.render area word_list written r0).2.headD 0) =
        TypingWidget.render area word_list written r0) := by
  constructor
  · intro area word_list written r0
    apply renderLoop_rows_ge area (written.length - 1) r0
    · intro r hr
      simp only [List.mem_singleton] at hr
      exact hr ▸ le_refl r0
    · intro it hit
      simp only [layoutItems, List.mem_map] at hit
      obtain ⟨i, hi, rfl⟩ := hit
      exact (List.mem_range'_1.mp hi).1
  · intro area word_list written r0 h
    rw [h]

/-- C10 counterexample: three one-character words `a b c`, all typed, in a
2-column 3-row viewport starting from row start 0.  The first render puts the
active word on visual row 2, so it drops the first tracked row start
(scrolls); the second render therefore starts one row later and draws a
different character at cell (0,0) (`'b'` instead of `'a'`): two successive
renders on an unchanged session and viewport do not produce identical styled
cell output. -/
theorem C10_scroll_changes_output :
    cellAt (TypingWidget.render ⟨0,0,2,3⟩ [['a'],['b'],['c']] [['a'],['b'],['c']]
        ((TypingWidget.render ⟨0,0,2,3⟩ [['a'],['b'],['c']] [['a'],['b'],['c']] 0).2.headD 0)).1
        0 0 ≠
      cellAt (TypingWidget.render ⟨0,0,2,3⟩ [['a'],['b'],['c']] [['a'],['b'],['c']] 0).1 0 0 := by
  decide

/-- Witness for `C10_render_fixed_point`: monotonicity and the fixed-point
property at a concrete render whose scroll position is stable. -/
theorem C10_render_fixed_point_witness :
    (0 : Nat) ≤ 0 ∧
    TypingWidget.render ⟨0,0,2,3⟩ [['a']] [['a']]
        ((TypingWidget.render ⟨0,0,2,3⟩ [['a']] [['a']] 0).2.headD 0) =
      TypingWidget.render ⟨0,0,2,3⟩ [['a']] [['a']] 0 :=
  ⟨C10_render_fixed_point.1 ⟨0,0,2,3⟩ [['a']] [['a']] 0 0 (by decide),
   C10_render_fixed_point.2 ⟨0,0,2,3⟩ [['a']] [['a']] 0 (by decide)⟩
